import Mathlib

/-!
# Verification of the VizAly-Helios distributed density histogram (`src/density/density.cpp`)

This file is a shallow embedding of the density-histogram pipeline of the
repository.  Scalar sample values (C `float` / `double`) are modelled as exact
rationals `ℚ`; machine integer indices are modelled as `ℤ`/`ℕ` (the values
involved are tiny compared to `int` range, so overflow is not modelled).  MPI
collectives (`MPI_Allreduce` with `MPI_MIN`/`MPI_MAX`/`MPI_SUM`) are modelled
as folds over the per-rank local contributions; the MPI semantics that every
rank receives the same reduced value is reflected by the model computing a
single value handed to every rank.  C `assert` statements are modelled as
error returns (an aborted process), since the repository builds with asserts
active.
-/

namespace Density

/-- `static_cast<int>` applied to a floating value: truncation toward zero. -/
def cppTrunc (q : ℚ) : ℤ := if 0 ≤ q then ⌊q⌋ else ⌈q⌉

/-- One entry of `json["density"]["inputs"]`: a data file path together with
its declared sample count (`current["data"]`, `current["count"]`). -/
structure FileDesc where
  path : String
  count : ℕ
deriving DecidableEq, Inhabited

/-- The configuration fields of `json["density"]` that the constructor reads:
the full ordered input list, `nb_bins`, and the output plot base path. -/
structure DensityCfg where
  inputs : List FileDesc
  nb_bins : ℕ
  output_plot : String
deriving DecidableEq

/-- The per-rank state established by the constructor `Density::Density`:
this rank's shard of the input list, its local sample count, the bin count
and the output base path. -/
structure DensityState where
  inputs : List FileDesc
  local_count : ℕ
  nb_bins : ℕ
  output_plot : String
deriving DecidableEq

/-- Failures of the constructor `Density::Density` (density.cpp lines 35-87):
the `throw std::runtime_error("mismatch on number of ranks and data
partition")` at line 81, and the aborts of `assert(nb_ranks > 0)` (line 40),
`assert(offset)` (line 64) and `assert(nb_bins > 0)` (line 85). -/
inductive InitError
  | assertRanks
  | rankMismatch
  | assertOffset
  | assertBins
deriving DecidableEq

/-- The shard-selection loop of the constructor (density.cpp lines 63-73):
rank `r` takes entries `index = i + my_rank * offset` for
`i = 0, …, offset-1` with `offset = partition_size / nb_ranks`
(integer division). -/
def shardOf (inputs : List FileDesc) (W r : ℕ) : List FileDesc :=
  let offset := inputs.length / W
  (List.range offset).map (fun i => inputs.getD (i + r * offset) default)

/-- The constructor `Density::Density` (density.cpp lines 35-87) for rank `r`
out of `W` ranks, restricted to the partition/validation logic the claims are
about.  `rank_mismatch = (partition_size < nb_ranks) or
(partition_size % nb_ranks != 0)` (line 60); the shard is taken when
`nb_ranks == 1 or not rank_mismatch` (line 62), otherwise the constructor
throws (line 81). -/
def densityInit (cfg : DensityCfg) (W r : ℕ) : Except InitError DensityState :=
  if W = 0 then .error .assertRanks
  else
    let T := cfg.inputs.length
    if W = 1 ∨ ¬(T < W ∨ T % W ≠ 0) then
      let offset := T / W
      if offset = 0 then .error .assertOffset
      else if cfg.nb_bins = 0 then .error .assertBins
      else
        .ok { inputs := shardOf cfg.inputs W r
              local_count := ((shardOf cfg.inputs W r).map FileDesc.count).sum
              nb_bins := cfg.nb_bins
              output_plot := cfg.output_plot }
    else .error .rankMismatch

/-- A raw binary sample file as seen by `Density::loadFiles`: whether the
`std::ifstream` is good after opening, and the float values the file
contains. -/
structure BinFile where
  good : Bool
  data : List ℚ
deriving DecidableEq

/-- The file system: a map from paths to files. -/
abbrev FS := String → BinFile

/-- Overwrite the region of `buf` starting at `off` with `vals`
(the effect of `file.read` into `density.data() + offset`). -/
def writeAt (buf : List ℚ) (off : ℕ) (vals : List ℚ) : List ℚ :=
  buf.take off ++ vals ++ buf.drop (off + vals.length)

/-- The loop of `Density::loadFiles` (density.cpp lines 99-115): for each
input descriptor, open the file; if the stream is not good, return `false`
immediately.  Otherwise `file.read(buffer, count * sizeof(float))` copies at
most `count` values from the file into the buffer region at the running
offset (a short file yields a short read, whose stream state the code never
inspects), and the offset advances by the declared `count`. -/
def loadLoop (fs : FS) : List FileDesc → ℕ → List ℚ → Bool × List ℚ
  | [], _, buf => (true, buf)
  | f :: rest, off, buf =>
    let file := fs f.path
    if ¬ file.good then (false, buf)
    else loadLoop fs rest (off + f.count) (writeAt buf off (file.data.take f.count))

/-- `Density::loadFiles` (density.cpp lines 90-120).  The buffer starts as
`density.resize(local_count)` left it: `local_count` zero floats.  On normal
loop exit the function returns `not density.empty()`. -/
def loadFiles (fs : FS) (st : DensityState) : Bool × List ℚ :=
  match loadLoop fs st.inputs 0 (List.replicate st.local_count (0 : ℚ)) with
  | (false, buf) => (false, buf)
  | (true, buf) => (!buf.isEmpty, buf)

/-- `*std::min_element(density.data(), density.data() + local_count)`
(density.cpp line 135); meaningful only on a nonempty buffer. -/
def listMin : List ℚ → ℚ
  | [] => 0
  | x :: xs => xs.foldl min x

/-- `*std::max_element(density.data(), density.data() + local_count)`
(density.cpp line 136); meaningful only on a nonempty buffer. -/
def listMax : List ℚ → ℚ
  | [] => 0
  | x :: xs => xs.foldl max x

/-- `MPI_Allreduce(&local_min, &total_min, 1, MPI_DOUBLE, MPI_MIN, comm)`
(density.cpp line 138): the minimum over all ranks of the per-rank local
minima.  `bufs` lists every rank's local sample buffer in rank order. -/
def totalMin (bufs : List (List ℚ)) : ℚ := listMin (bufs.map listMin)

/-- `MPI_Allreduce(&local_max, &total_max, 1, MPI_DOUBLE, MPI_MAX, comm)`
(density.cpp line 137): the maximum over all ranks of the per-rank local
maxima. -/
def totalMax (bufs : List (List ℚ)) : ℚ := listMax (bufs.map listMax)

/-- The `(total_min, total_max)` pair as observed by rank `r` after the two
`MPI_Allreduce` calls return: MPI delivers the same reduced values to every
rank, so the result does not depend on `r`. -/
def observedRange (bufs : List (List ℚ)) (_r : ℕ) : ℚ × ℚ :=
  (totalMin bufs, totalMax bufs)

/-- `MPI_Allreduce(&local_count, &total_count, 1, MPI_LONG, MPI_SUM, comm)`
(density.cpp line 78), expressed at the buffer level: after `resize`, each
rank's buffer length is exactly its `local_count`. -/
def totalCountReduction (bufs : List (List ℚ)) : ℕ := (bufs.map List.length).sum

/-- The unclamped bin index of sample `v` (density.cpp lines 147-152):
`range = total_max - total_min`, `capacity = range / nb_bins`,
`relative_value = (density[k] - total_min) / range`,
`index = static_cast<int>((range * relative_value) / capacity)`. -/
def rawIndex (nb_bins : ℕ) (tmin tmax v : ℚ) : ℤ :=
  let range := tmax - tmin
  let capacity := range / (nb_bins : ℚ)
  let relative_value := (v - tmin) / range
  cppTrunc ((range * relative_value) / capacity)

/-- The final bin index after the clamp (density.cpp lines 154-155):
`if (index >= nb_bins) index--`. -/
def binIndex (nb_bins : ℕ) (tmin tmax v : ℚ) : ℤ :=
  let index := rawIndex nb_bins tmin tmax v
  if (nb_bins : ℤ) ≤ index then index - 1 else index

/-- `local_histo[i]++` for an integer index `i` (density.cpp line 157).  An
out-of-range index is undefined behaviour in the C++; the model leaves the
array unchanged in that case, and every theorem below establishes that the
index is in range, so that branch is dead in all proved statements. -/
def incAt (h : List ℤ) (i : ℤ) : List ℤ :=
  if 0 ≤ i ∧ i.toNat < h.length then h.set i.toNat (h.getD i.toNat 0 + 1) else h

/-- The per-rank binning loop (density.cpp lines 144, 150-158): starting from
`local_histo` filled with zeros, bin every sample of the local buffer. -/
def localHisto (nb_bins : ℕ) (tmin tmax : ℚ) (buf : List ℚ) : List ℤ :=
  buf.foldl (fun h v => incAt h (binIndex nb_bins tmin tmax v)) (List.replicate nb_bins (0 : ℤ))

/-- `MPI_Allreduce(local_histo, total_histo, nb_bins, MPI_LONG, MPI_SUM,
comm)` (density.cpp line 160): the element-wise sum of all ranks' local
histograms, starting from the zero-filled `total_histo` (line 145). -/
def reduceSum (nb_bins : ℕ) (vs : List (List ℤ)) : List ℤ :=
  vs.foldl (fun acc v => List.zipWith (· + ·) acc v) (List.replicate nb_bins (0 : ℤ))

/-- Failures of `Density::computeFrequencies`: the aborts of
`assert(local_count)` (line 129, on some rank) and `assert(total_count)`
(line 130). -/
inductive FreqError
  | assertLocalCount
  | assertTotalCount
deriving DecidableEq

/-- The values `computeFrequencies` establishes on every rank: the reduced
extrema and the reduced histogram. -/
structure FreqResult where
  total_min : ℚ
  total_max : ℚ
  histo : List ℤ
deriving DecidableEq

/-- `Density::computeFrequencies` (density.cpp lines 124-172) for the whole
group of ranks, `bufs` being the per-rank sample buffers in rank order.
There is no check whatsoever between the range reduction and the binning
loop: in particular a degenerate range (`total_max == total_min`) flows
straight into the divisions at lines 148 and 151 (in IEEE arithmetic `0/0`
is NaN and the `int` cast is undefined; in this exact model division by zero
yields `0`, so every sample lands in bin 0).  In neither semantics is any
error raised. -/
def computeFrequencies (nb_bins : ℕ) (bufs : List (List ℚ)) : Except FreqError FreqResult :=
  if bufs.any List.isEmpty then .error .assertLocalCount
  else if totalCountReduction bufs = 0 then .error .assertTotalCount
  else
    let tmin := totalMin bufs
    let tmax := totalMax bufs
    .ok { total_min := tmin
          total_max := tmax
          histo := reduceSum nb_bins (bufs.map (localHisto nb_bins tmin tmax)) }

/-- The formatting state applied to the boundary value by `dumpHistogram`:
`std::setw(10) << std::setprecision(4)` (density.cpp line 189).  `fixed`
records whether `std::fixed` is in effect on the stream; the source never
sets it, so the stream stays in the default (general) floating-point format,
where the precision counts significant digits and trailing zeros are not
printed. -/
structure NumFmt where
  width : ℕ
  precision : ℕ
  fixed : Bool
deriving DecidableEq

/-- One data line of the histogram file (density.cpp lines 188-192): the bin
upper boundary under its formatting state, a tab, and the bin count. -/
structure DataLine where
  fmt : NumFmt
  value : ℚ
  count : ℤ
deriving DecidableEq

/-- The text file `dumpHistogram` writes: its path, whether it is opened
with `std::ios::trunc`, the leading comment lines and the data lines. -/
structure HistoFile where
  path : String
  truncate : Bool
  comments : List String
  lines : List DataLine
deriving DecidableEq

/-- `Density::dumpHistogram` (density.cpp lines 175-195): compute
`width = (total_max - total_min) / nb_bins`, open `output_plot + ".dat"`
truncating, write three `#`-prefixed comment lines, then for each histogram
entry one line `setw(10) << setprecision(4) << total_min + k * width`, a tab
and the count, with `k` running from 1. -/
def dumpHistogram (output_plot : String) (nb_bins : ℕ) (tmin tmax : ℚ)
    (histo : List ℤ) : HistoFile :=
  let width := (tmax - tmin) / (nb_bins : ℚ)
  { path := output_plot ++ ".dat"
    truncate := true
    comments := ["# bins: " ++ toString nb_bins,
                 "# col 1: density range",
                 "# col 2: particle count"]
    lines := (List.range histo.length).map fun (i : ℕ) =>
      { fmt := { width := 10, precision := 4, fixed := false }
        value := tmin + ((i : ℚ) + 1) * width
        count := histo.getD i 0 } }

/-- The rank-0 gate around the writer (density.cpp lines 162-164): only rank
0 calls `dumpHistogram`; every other rank writes nothing. -/
def histogramOutput (r : ℕ) (output_plot : String) (nb_bins : ℕ) (tmin tmax : ℚ)
    (histo : List ℤ) : Option HistoFile :=
  if r = 0 then some (dumpHistogram output_plot nb_bins tmin tmax histo) else none

/-- The Histogram Writer exactly as claim C9 words it: the same layout, but
with the boundary claimed to be written in fixed 4-decimal notation
(`std::fixed` in effect), and the `N` data lines ranging over the `nb_bins`
bins.  Built from the spec text, to be compared with `dumpHistogram`. -/
def specWriterFixed (output_plot : String) (nb_bins : ℕ) (tmin tmax : ℚ)
    (histo : List ℤ) : HistoFile :=
  let width := (tmax - tmin) / (nb_bins : ℚ)
  { path := output_plot ++ ".dat"
    truncate := true
    comments := ["# bins: " ++ toString nb_bins,
                 "# col 1: density range",
                 "# col 2: particle count"]
    lines := (List.range nb_bins).map fun (k : ℕ) =>
      { fmt := { width := 10, precision := 4, fixed := true }
        value := tmin + ((k : ℚ) + 1) * width
        count := histo.getD k 0 } }

/-- Claim C9 amended: the same spec-shaped writer with the format the code
actually applies, `setw(10) << setprecision(4)` in the default (general)
floating format, `std::fixed` never set. -/
def specWriterGeneral (output_plot : String) (nb_bins : ℕ) (tmin tmax : ℚ)
    (histo : List ℤ) : HistoFile :=
  let width := (tmax - tmin) / (nb_bins : ℚ)
  { path := output_plot ++ ".dat"
    truncate := true
    comments := ["# bins: " ++ toString nb_bins,
                 "# col 1: density range",
                 "# col 2: particle count"]
    lines := (List.range nb_bins).map fun (k : ℕ) =>
      { fmt := { width := 10, precision := 4, fixed := false }
        value := tmin + ((k : ℚ) + 1) * width
        count := histo.getD k 0 } }

/-- What one `Density::run` leaves behind: whether `loadFiles` reported
success, what `computeFrequencies` produced, and the file the writer
emitted (if the computation reached it). -/
structure RunResult where
  load_ok : Bool
  freq : Except FreqError FreqResult
  output : Option HistoFile

/-- `Density::run` (density.cpp lines 198-205) for a single-rank job
(`W = 1`, rank 0): `run` calls `loadFiles()` and then
`computeFrequencies()` unconditionally — the Boolean result of `loadFiles`
is discarded at line 201.  On rank 0 `computeFrequencies` ends by writing
the histogram file. -/
def runSingleRank (fs : FS) (cfg : DensityCfg) : Except InitError RunResult :=
  match densityInit cfg 1 0 with
  | .error e => .error e
  | .ok st =>
    let load := loadFiles fs st
    let fr := computeFrequencies st.nb_bins [load.2]
    .ok { load_ok := load.1
          freq := fr
          output :=
            match fr with
            | .ok res =>
              histogramOutput 0 st.output_plot st.nb_bins res.total_min res.total_max res.histo
            | .error _ => none }

/-! ### Helper lemmas: `listMin` / `listMax` -/

theorem foldl_min_le_init (a : ℚ) (l : List ℚ) : l.foldl min a ≤ a := by
  induction l generalizing a with
  | nil => exact le_refl a
  | cons x xs ih => exact le_trans (ih (min a x)) (min_le_left a x)

theorem foldl_min_le_mem (a y : ℚ) (l : List ℚ) (hy : y ∈ l) : l.foldl min a ≤ y := by
  induction l generalizing a with
  | nil => cases hy
  | cons x xs ih =>
    rcases List.mem_cons.mp hy with h | h
    · subst h
      exact le_trans (foldl_min_le_init (min a y) xs) (min_le_right a y)
    · exact ih _ h

theorem foldl_min_mem (a : ℚ) (l : List ℚ) : l.foldl min a = a ∨ l.foldl min a ∈ l := by
  induction l generalizing a with
  | nil => exact Or.inl rfl
  | cons x xs ih =>
    rcases ih (min a x) with h | h
    · rcases min_choice a x with h1 | h1
      · exact Or.inl (by rw [List.foldl_cons, h, h1])
      · exact Or.inr (by rw [List.foldl_cons, h, h1]; exact List.mem_cons_self x xs)
    · exact Or.inr (List.mem_cons_of_mem x h)

theorem listMin_mem (l : List ℚ) (h : l ≠ []) : Density.listMin l ∈ l := by
  cases l with
  | nil => exact absurd rfl h
  | cons x xs =>
    rcases foldl_min_mem x xs with h1 | h1
    · show xs.foldl min x ∈ x :: xs
      rw [h1]; exact List.mem_cons_self x xs
    · exact List.mem_cons_of_mem x h1

theorem listMin_le (l : List ℚ) (y : ℚ) (hy : y ∈ l) : Density.listMin l ≤ y := by
  cases l with
  | nil => cases hy
  | cons x xs =>
    rcases List.mem_cons.mp hy with h | h
    · subst h; exact foldl_min_le_init y xs
    · exact foldl_min_le_mem x y xs h

theorem foldl_max_le_init (a : ℚ) (l : List ℚ) : a ≤ l.foldl max a := by
  induction l generalizing a with
  | nil => exact le_refl a
  | cons x xs ih => exact le_trans (le_max_left a x) (ih (max a x))

theorem foldl_max_le_mem (a y : ℚ) (l : List ℚ) (hy : y ∈ l) : y ≤ l.foldl max a := by
  induction l generalizing a with
  | nil => cases hy
  | cons x xs ih =>
    rcases List.mem_cons.mp hy with h | h
    · subst h
      exact le_trans (le_max_right a y) (foldl_max_le_init (max a y) xs)
    · exact ih _ h

theorem foldl_max_mem (a : ℚ) (l : List ℚ) : l.foldl max a = a ∨ l.foldl max a ∈ l := by
  induction l generalizing a with
  | nil => exact Or.inl rfl
  | cons x xs ih =>
    rcases ih (max a x) with h | h
    · rcases max_choice a x with h1 | h1
      · exact Or.inl (by rw [List.foldl_cons, h, h1])
      · exact Or.inr (by rw [List.foldl_cons, h, h1]; exact List.mem_cons_self x xs)
    · exact Or.inr (List.mem_cons_of_mem x h)

theorem listMax_mem (l : List ℚ) (h : l ≠ []) : Density.listMax l ∈ l := by
  cases l with
  | nil => exact absurd rfl h
  | cons x xs =>
    rcases foldl_max_mem x xs with h1 | h1
    · show xs.foldl max x ∈ x :: xs
      rw [h1]; exact List.mem_cons_self x xs
    · exact List.mem_cons_of_mem x h1

theorem le_listMax (l : List ℚ) (y : ℚ) (hy : y ∈ l) : y ≤ Density.listMax l := by
  cases l with
  | nil => cases hy
  | cons x xs =>
    rcases List.mem_cons.mp hy with h | h
    · subst h; exact foldl_max_le_init y xs
    · exact foldl_max_le_mem x y xs h

theorem totalMin_le (bufs : List (List ℚ)) (b : List ℚ) (v : ℚ)
    (hb : b ∈ bufs) (hv : v ∈ b) : Density.totalMin bufs ≤ v :=
  le_trans (listMin_le _ _ (List.mem_map_of_mem Density.listMin hb)) (listMin_le b v hv)

theorem le_totalMax (bufs : List (List ℚ)) (b : List ℚ) (v : ℚ)
    (hb : b ∈ bufs) (hv : v ∈ b) : v ≤ Density.totalMax bufs :=
  le_trans (le_listMax b v hv)
    (le_listMax (bufs.map Density.listMax) _ (List.mem_map_of_mem Density.listMax hb))

/-! ### Helper lemmas: bin index arithmetic -/

theorem rawIndex_eq_floor (nb : ℕ) (tmin tmax v : ℚ) (hr : tmin < tmax) (hnb : 0 < nb)
    (h1 : tmin ≤ v) :
    rawIndex nb tmin tmax v = ⌊(v - tmin) * nb / (tmax - tmin)⌋ := by
  have hpos : (0:ℚ) < tmax - tmin := sub_pos.mpr hr
  have hnbq : (0:ℚ) < (nb : ℚ) := by exact_mod_cast hnb
  have harg : (tmax - tmin) * ((v - tmin) / (tmax - tmin)) / ((tmax - tmin) / (nb : ℚ))
      = (v - tmin) * nb / (tmax - tmin) := by
    field_simp
  have hargnn : 0 ≤ (v - tmin) * nb / (tmax - tmin) :=
    div_nonneg (mul_nonneg (sub_nonneg.mpr h1) hnbq.le) hpos.le
  simp only [rawIndex, cppTrunc, harg, if_pos hargnn]

theorem rawIndex_bounds (nb : ℕ) (tmin tmax v : ℚ) (hr : tmin < tmax) (hnb : 0 < nb)
    (h1 : tmin ≤ v) (h2 : v ≤ tmax) :
    0 ≤ rawIndex nb tmin tmax v ∧ rawIndex nb tmin tmax v ≤ nb ∧
      (rawIndex nb tmin tmax v = nb ↔ v = tmax) := by
  have hpos : (0:ℚ) < tmax - tmin := sub_pos.mpr hr
  have hnbq : (0:ℚ) < (nb : ℚ) := by exact_mod_cast hnb
  have hx0 : 0 ≤ (v - tmin) * nb / (tmax - tmin) :=
    div_nonneg (mul_nonneg (sub_nonneg.mpr h1) hnbq.le) hpos.le
  have hxle : (v - tmin) * nb / (tmax - tmin) ≤ (nb : ℚ) := by
    rw [div_le_iff₀ hpos]
    have hsub : v - tmin ≤ tmax - tmin := sub_le_sub_right h2 tmin
    calc (v - tmin) * nb ≤ (tmax - tmin) * nb :=
          mul_le_mul_of_nonneg_right hsub hnbq.le
      _ = (nb : ℚ) * (tmax - tmin) := mul_comm _ _
  rw [rawIndex_eq_floor nb tmin tmax v hr hnb h1]
  refine ⟨Int.floor_nonneg.mpr hx0, ?_, ?_, ?_⟩
  · calc ⌊(v - tmin) * nb / (tmax - tmin)⌋ ≤ ⌊((nb : ℕ) : ℚ)⌋ := Int.floor_le_floor hxle
      _ = (nb : ℤ) := Int.floor_natCast nb
  · intro hfl
    have hxge : ((nb : ℕ) : ℚ) ≤ (v - tmin) * nb / (tmax - tmin) := by
      have hle : (nb : ℤ) ≤ ⌊(v - tmin) * nb / (tmax - tmin)⌋ := le_of_eq hfl.symm
      exact_mod_cast Int.le_floor.mp hle
    have hxeq : (v - tmin) * nb / (tmax - tmin) = (nb : ℚ) := le_antisymm hxle hxge
    rw [div_eq_iff (ne_of_gt hpos)] at hxeq
    have hcancel : v - tmin = tmax - tmin :=
      mul_right_cancel₀ (ne_of_gt hnbq) (by linarith [hxeq])
    linarith
  · rintro rfl
    have hxeq : (v - tmin) * nb / (v - tmin) = (nb : ℚ) := by
      rw [mul_comm, mul_div_assoc, div_self (ne_of_gt hpos), mul_one]
    rw [hxeq, Int.floor_natCast]

theorem binIndex_eq_clamped (nb : ℕ) (tmin tmax v : ℚ) (hr : tmin < tmax) (hnb : 0 < nb)
    (h1 : tmin ≤ v) (h2 : v ≤ tmax) :
    binIndex nb tmin tmax v =
      if rawIndex nb tmin tmax v = nb then (nb : ℤ) - 1 else rawIndex nb tmin tmax v := by
  obtain ⟨_, hle, _⟩ := rawIndex_bounds nb tmin tmax v hr hnb h1 h2
  by_cases hc : rawIndex nb tmin tmax v = (nb : ℤ)
  · rw [binIndex, if_pos (le_of_eq hc.symm), if_pos hc, hc]
  · rw [binIndex, if_neg (fun hge => hc (le_antisymm hle hge)), if_neg hc]

theorem binIndex_bounds (nb : ℕ) (tmin tmax v : ℚ) (hr : tmin < tmax) (hnb : 0 < nb)
    (h1 : tmin ≤ v) (h2 : v ≤ tmax) :
    0 ≤ binIndex nb tmin tmax v ∧ binIndex nb tmin tmax v < nb := by
  obtain ⟨h0, hle, _⟩ := rawIndex_bounds nb tmin tmax v hr hnb h1 h2
  have hnbz : (1 : ℤ) ≤ (nb : ℤ) := by exact_mod_cast hnb
  rw [binIndex_eq_clamped nb tmin tmax v hr hnb h1 h2]
  by_cases hc : rawIndex nb tmin tmax v = (nb : ℤ)
  · rw [if_pos hc]
    constructor <;> omega
  · rw [if_neg hc]
    exact ⟨h0, lt_of_le_of_ne hle hc⟩

/-! ### Helper lemmas: histogram counting -/

theorem incAt_length (h : List ℤ) (i : ℤ) : (incAt h i).length = h.length := by
  unfold incAt
  split
  · exact List.length_set h _ _
  · rfl

theorem sum_set_succ (l : List ℤ) (n : ℕ) (hn : n < l.length) :
    (l.set n (l.getD n 0 + 1)).sum = l.sum + 1 := by
  induction l generalizing n with
  | nil => simp at hn
  | cons a t ih =>
    cases n with
    | zero =>
      simp only [List.set_cons_zero, List.getD_cons_zero, List.sum_cons]
      ring
    | succ m =>
      have hm : m < t.length := by simpa using hn
      simp only [List.set_cons_succ, List.getD_cons_succ, List.sum_cons, ih m hm]
      ring

theorem incAt_sum (h : List ℤ) (i : ℤ) (h0 : 0 ≤ i) (hlt : i < (h.length : ℤ)) :
    (incAt h i).sum = h.sum + 1 := by
  have ht : i.toNat < h.length := by omega
  rw [incAt, if_pos ⟨h0, ht⟩]
  exact sum_set_succ h i.toNat ht

theorem foldl_inc_length (nb : ℕ) (tmin tmax : ℚ) (buf : List ℚ) (h : List ℤ) :
    (buf.foldl (fun acc v => incAt acc (binIndex nb tmin tmax v)) h).length = h.length := by
  induction buf generalizing h with
  | nil => rfl
  | cons x xs ih => rw [List.foldl_cons, ih, incAt_length]

theorem foldl_inc_sum (nb : ℕ) (tmin tmax : ℚ) (buf : List ℚ) (h : List ℤ)
    (hin : ∀ v ∈ buf, 0 ≤ binIndex nb tmin tmax v ∧ binIndex nb tmin tmax v < (h.length : ℤ)) :
    (buf.foldl (fun acc v => incAt acc (binIndex nb tmin tmax v)) h).sum
      = h.sum + (buf.length : ℤ) := by
  induction buf generalizing h with
  | nil => simp
  | cons x xs ih =>
    obtain ⟨h0, hlt⟩ := hin x (List.mem_cons_self x xs)
    rw [List.foldl_cons,
      ih (incAt h (binIndex nb tmin tmax x)) (fun v hv => by
        rw [incAt_length]
        exact hin v (List.mem_cons_of_mem x hv)),
      incAt_sum h _ h0 hlt]
    simp only [List.length_cons]
    push_cast
    ring

theorem localHisto_length (nb : ℕ) (tmin tmax : ℚ) (buf : List ℚ) :
    (localHisto nb tmin tmax buf).length = nb := by
  rw [localHisto, foldl_inc_length, List.length_replicate]

theorem localHisto_sum (nb : ℕ) (tmin tmax : ℚ) (buf : List ℚ)
    (hin : ∀ v ∈ buf, 0 ≤ binIndex nb tmin tmax v ∧ binIndex nb tmin tmax v < (nb : ℤ)) :
    (localHisto nb tmin tmax buf).sum = (buf.length : ℤ) := by
  rw [localHisto, foldl_inc_sum]
  · simp
  · intro v hv
    rw [List.length_replicate]
    exact hin v hv

theorem sum_zipWith_add (a b : List ℤ) (h : a.length = b.length) :
    (List.zipWith (· + ·) a b).sum = a.sum + b.sum := by
  induction a generalizing b with
  | nil =>
    cases b with
    | nil => simp
    | cons y ys => simp at h
  | cons x xs ih =>
    cases b with
    | nil => simp at h
    | cons y ys =>
      simp only [List.zipWith_cons_cons, List.sum_cons]
      rw [ih ys (by simpa using h)]
      ring

theorem zipWith_add_length (a b : List ℤ) (h : a.length = b.length) :
    (List.zipWith (· + ·) a b).length = a.length := by
  rw [List.length_zipWith, h, min_self]

theorem foldl_zip_sum (vs : List (List ℤ)) (init : List ℤ)
    (h : ∀ v ∈ vs, v.length = init.length) :
    (vs.foldl (fun acc v => List.zipWith (· + ·) acc v) init).sum
      = init.sum + (vs.map List.sum).sum := by
  induction vs generalizing init with
  | nil => simp
  | cons x xs ih =>
    have hx : x.length = init.length := h x (List.mem_cons_self x xs)
    rw [List.foldl_cons, ih (List.zipWith (· + ·) init x) (fun v hv => by
        rw [zipWith_add_length init x hx.symm]
        exact h v (List.mem_cons_of_mem x hv)),
      sum_zipWith_add init x hx.symm]
    simp only [List.map_cons, List.sum_cons]
    ring

theorem reduceSum_sum (nb : ℕ) (vs : List (List ℤ)) (h : ∀ v ∈ vs, v.length = nb) :
    (reduceSum nb vs).sum = (vs.map List.sum).sum := by
  rw [reduceSum, foldl_zip_sum vs (List.replicate nb 0) (fun v hv => by
    rw [List.length_replicate]
    exact h v hv)]
  simp

/-! ### Helper lemmas: the reduced range is the range of the combined multiset -/

theorem totalMin_eq_join (bufs : List (List ℚ)) (h0 : bufs ≠ [])
    (hall : ∀ b ∈ bufs, b ≠ []) : totalMin bufs = listMin bufs.flatten := by
  have hjoin_ne : bufs.flatten ≠ [] := by
    obtain ⟨b, hb⟩ := List.exists_mem_of_ne_nil bufs h0
    obtain ⟨v, hv⟩ := List.exists_mem_of_ne_nil b (hall b hb)
    exact List.ne_nil_of_mem (List.mem_flatten.mpr ⟨b, hb, hv⟩)
  have hmap_ne : bufs.map listMin ≠ [] := by
    simpa using h0
  apply le_antisymm
  · obtain ⟨b, hb, hv⟩ := List.mem_flatten.mp (listMin_mem _ hjoin_ne)
    calc totalMin bufs ≤ listMin b := listMin_le _ _ (List.mem_map_of_mem listMin hb)
      _ ≤ listMin bufs.flatten := listMin_le b _ hv
  · obtain ⟨b, hb, heq⟩ := List.mem_map.mp (listMin_mem (bufs.map listMin) hmap_ne)
    rw [totalMin, ← heq]
    exact listMin_le bufs.flatten (listMin b)
      (List.mem_flatten.mpr ⟨b, hb, listMin_mem b (hall b hb)⟩)

theorem totalMax_eq_join (bufs : List (List ℚ)) (h0 : bufs ≠ [])
    (hall : ∀ b ∈ bufs, b ≠ []) : totalMax bufs = listMax bufs.flatten := by
  have hjoin_ne : bufs.flatten ≠ [] := by
    obtain ⟨b, hb⟩ := List.exists_mem_of_ne_nil bufs h0
    obtain ⟨v, hv⟩ := List.exists_mem_of_ne_nil b (hall b hb)
    exact List.ne_nil_of_mem (List.mem_flatten.mpr ⟨b, hb, hv⟩)
  have hmap_ne : bufs.map listMax ≠ [] := by
    simpa using h0
  apply le_antisymm
  · obtain ⟨b, hb, heq⟩ := List.mem_map.mp (listMax_mem (bufs.map listMax) hmap_ne)
    rw [totalMax, ← heq]
    exact le_listMax bufs.flatten (listMax b)
      (List.mem_flatten.mpr ⟨b, hb, listMax_mem b (hall b hb)⟩)
  · obtain ⟨b, hb, hv⟩ := List.mem_flatten.mp (listMax_mem _ hjoin_ne)
    calc listMax bufs.flatten ≤ listMax b := le_listMax b _ hv
      _ ≤ totalMax bufs := le_listMax _ _ (List.mem_map_of_mem listMax hb)

/-! ### Helper lemmas: shard partitioning -/

theorem shardOf_length (l : List FileDesc) (W r : ℕ) :
    (shardOf l W r).length = l.length / W := by
  simp [shardOf]

theorem shardOf_eq_drop_take (l : List FileDesc) (W r : ℕ)
    (h : (r + 1) * (l.length / W) ≤ l.length) :
    shardOf l W r = (l.drop (r * (l.length / W))).take (l.length / W) := by
  apply List.ext_getElem
  · have h2 : r * (l.length / W) + l.length / W ≤ l.length := by
      calc r * (l.length / W) + l.length / W = (r + 1) * (l.length / W) := by ring
        _ ≤ l.length := h
    simp only [shardOf, List.length_map, List.length_range, List.length_take,
      List.length_drop]
    omega
  · intro i h1 h2
    have hlen : i < l.length / W := by
      simpa [shardOf] using h1
    have hidx : i + r * (l.length / W) < l.length := by
      have : i + r * (l.length / W) < (r + 1) * (l.length / W) := by
        calc i + r * (l.length / W) < l.length / W + r * (l.length / W) := by omega
          _ = (r + 1) * (l.length / W) := by ring
      omega
    simp only [shardOf, List.getElem_map, List.getElem_range, List.getElem_take,
      List.getElem_drop]
    rw [List.getD_eq_getElem l default hidx]
    congr 1
    omega

theorem map_getD_range (l : List FileDesc) :
    (List.range l.length).map (fun i => l.getD i default) = l := by
  apply List.ext_getElem
  · simp
  · intro i h1 h2
    simp only [List.getElem_map, List.getElem_range]
    exact List.getD_eq_getElem l default h2

theorem shardOf_one (l : List FileDesc) : shardOf l 1 0 = l := by
  unfold shardOf
  simp only [Nat.div_one, Nat.zero_mul, Nat.add_zero]
  exact map_getD_range l

theorem join_chunks (o : ℕ) : ∀ (W : ℕ) (l : List FileDesc), l.length = W * o →
    ((List.range W).map (fun r => (l.drop (r * o)).take o)).flatten = l := by
  intro W
  induction W with
  | zero =>
    intro l h
    simp at h
    simp [h]
  | succ n ih =>
    intro l h
    rw [List.range_succ_eq_map, List.map_cons, List.map_map, List.flatten_cons]
    have hchunk : ∀ r : ℕ, (l.drop (Nat.succ r * o)).take o
        = ((l.drop o).drop (r * o)).take o := by
      intro r
      rw [List.drop_drop, Nat.succ_mul, Nat.add_comm (r * o) o]
    have hmaps : (List.range n).map ((fun r => (l.drop (r * o)).take o) ∘ Nat.succ)
        = (List.range n).map (fun r => ((l.drop o).drop (r * o)).take o) := by
      apply List.map_congr_left
      intro r _
      exact hchunk r
    rw [Nat.zero_mul, List.drop_zero, hmaps,
      ih (l.drop o) (by
        rw [List.length_drop, h]
        have hno : (n + 1) * o = n * o + o := by ring
        omega)]
    exact List.take_append_drop o l

/-! ### The claims -/

theorem computeFrequencies_ok (nb : ℕ) (bufs : List (List ℚ))
    (h0 : bufs ≠ []) (hall : ∀ b ∈ bufs, b ≠ []) :
    computeFrequencies nb bufs =
      Except.ok
        { total_min := totalMin bufs
          total_max := totalMax bufs
          histo := reduceSum nb (bufs.map (localHisto nb (totalMin bufs) (totalMax bufs))) } := by
  have hnotany : bufs.any List.isEmpty = false := by
    simp only [List.any_eq_false]
    intro b hb
    simpa [List.isEmpty_iff] using hall b hb
  have htot : ¬ totalCountReduction bufs = 0 := by
    obtain ⟨b, hb⟩ := List.exists_mem_of_ne_nil bufs h0
    have hpos : 0 < b.length := List.length_pos.mpr (hall b hb)
    have hmem : b.length ∈ bufs.map List.length := List.mem_map_of_mem List.length hb
    have hle : b.length ≤ (bufs.map List.length).sum := List.le_sum_of_mem hmem
    rw [totalCountReduction]
    omega
  rw [computeFrequencies]
  simp [hnotany, htot]

/-- Claim C1: for every non-degenerate global range (`tmin < tmax`), positive
bin count `N`, and sample `v` with `tmin ≤ v ≤ tmax`, the binning loop of
`computeFrequencies` assigns `v` the bin `⌊((v - tmin) / (tmax - tmin)) * N⌋`
clamped to `N - 1` when that value equals `N`; a sample equal to the global
maximum lands in bin `N - 1`; and the implemented expression
`static_cast<int>((range * relative) / capacity)` with `capacity = range / N`
equals the simplified `⌊relative * N⌋` (samples are modelled as exact
rationals, so this is the algebraic identity of the spec). -/
theorem claim_bin_assignment (nb : ℕ) (tmin tmax v : ℚ)
    (hr : tmin < tmax) (hnb : 0 < nb) (h1 : tmin ≤ v) (h2 : v ≤ tmax) :
    binIndex nb tmin tmax v =
        (if ⌊(v - tmin) / (tmax - tmin) * nb⌋ = nb then (nb : ℤ) - 1
         else ⌊(v - tmin) / (tmax - tmin) * nb⌋) ∧
      (v = tmax → binIndex nb tmin tmax v = (nb : ℤ) - 1) ∧
      rawIndex nb tmin tmax v = ⌊(v - tmin) / (tmax - tmin) * nb⌋ := by
  have hflip : (v - tmin) / (tmax - tmin) * nb = (v - tmin) * nb / (tmax - tmin) := by
    ring
  have hraw := rawIndex_eq_floor nb tmin tmax v hr hnb h1
  obtain ⟨h0, hle, hiff⟩ := rawIndex_bounds nb tmin tmax v hr hnb h1 h2
  refine ⟨?_, ?_, ?_⟩
  · rw [binIndex_eq_clamped nb tmin tmax v hr hnb h1 h2, hflip, ← hraw]
  · intro hv
    rw [binIndex_eq_clamped nb tmin tmax v hr hnb h1 h2, if_pos (hiff.mpr hv)]
  · rw [hraw, hflip]

/-- Witness for C1: with range `[0, 4]` and 5 bins, the sample `4` (the
global maximum) is placed in bin `5 - 1 = 4`. -/
theorem claim_bin_assignment_witness : binIndex 5 0 4 4 = (5 : ℤ) - 1 :=
  (claim_bin_assignment 5 0 4 4 (by norm_num) (by norm_num) (by norm_num) (by norm_num)).2.1
    rfl

/-- Claim C2: for every run with a non-degenerate reduced range and
`N ≥ 1` bins (every rank's buffer nonempty, as `assert(local_count)`
requires), `computeFrequencies` succeeds and the sum of all `N` entries of
the reduced histogram equals the total sample count over all ranks — the
value the prior `MPI_Allreduce` total-count reduction computes. -/
theorem claim_histogram_total_invariant (nb : ℕ) (bufs : List (List ℚ))
    (hnb : 0 < nb) (h0 : bufs ≠ []) (hall : ∀ b ∈ bufs, b ≠ [])
    (hrange : totalMin bufs < totalMax bufs) :
    ∃ res, computeFrequencies nb bufs = Except.ok res ∧
      res.histo.sum = (totalCountReduction bufs : ℤ) := by
  refine ⟨_, computeFrequencies_ok nb bufs h0 hall, ?_⟩
  have hlen : ∀ v ∈ bufs.map (localHisto nb (totalMin bufs) (totalMax bufs)), v.length = nb := by
    intro v hv
    obtain ⟨b, hb, rfl⟩ := List.mem_map.mp hv
    exact localHisto_length nb _ _ b
  rw [reduceSum_sum nb _ hlen, List.map_map]
  have hmapsum : bufs.map (List.sum ∘ localHisto nb (totalMin bufs) (totalMax bufs))
      = bufs.map (fun b => (b.length : ℤ)) := by
    apply List.map_congr_left
    intro b hb
    have hin : ∀ v ∈ b, 0 ≤ binIndex nb (totalMin bufs) (totalMax bufs) v ∧
        binIndex nb (totalMin bufs) (totalMax bufs) v < (nb : ℤ) := fun v hv =>
      binIndex_bounds nb _ _ v hrange hnb (totalMin_le bufs b v hb hv)
        (le_totalMax bufs b v hb hv)
    exact localHisto_sum nb _ _ b hin
  rw [hmapsum, totalCountReduction]
  push_cast
  rw [List.map_map]
  rfl

/-- Witness for C2: the spec's end-to-end example (two ranks holding
`[0, 1, 2]` and `[3, 4]`, 5 bins): the reduced histogram sums to the total
sample count. -/
theorem claim_histogram_total_invariant_witness :
    ∃ res, computeFrequencies 5 [[0, 1, 2], [3, 4]] = Except.ok res ∧
      res.histo.sum = (totalCountReduction [[0, 1, 2], [3, 4]] : ℤ) :=
  claim_histogram_total_invariant 5 [[0, 1, 2], [3, 4]] (by decide) (by decide)
    (by decide) (by decide)

/-- Claim C3: for any multiset of samples split across ranks (each rank's
buffer nonempty), the reduced `(total_min, total_max)` pair equals the true
minimum and maximum of the combined multiset, and every rank observes the
identical pair after the reduction returns. -/
theorem claim_range_reduction_correct (bufs : List (List ℚ))
    (h0 : bufs ≠ []) (hall : ∀ b ∈ bufs, b ≠ []) :
    totalMin bufs = listMin bufs.flatten ∧ totalMax bufs = listMax bufs.flatten ∧
      ∀ r s : ℕ, observedRange bufs r = observedRange bufs s :=
  ⟨totalMin_eq_join bufs h0 hall, totalMax_eq_join bufs h0 hall, fun _ _ => rfl⟩

/-- Witness for C3: on the spec's example split `[[0,1,2],[3,4]]`, the
reduced extrema are those of the combined data. -/
theorem claim_range_reduction_correct_witness :
    totalMin [[0, 1, 2], [3, 4]] = listMin ([[0, 1, 2], [3, 4]] : List (List ℚ)).flatten ∧
      totalMax [[0, 1, 2], [3, 4]] = listMax ([[0, 1, 2], [3, 4]] : List (List ℚ)).flatten :=
  ⟨(claim_range_reduction_correct [[0, 1, 2], [3, 4]] (by decide) (by decide)).1,
   (claim_range_reduction_correct [[0, 1, 2], [3, 4]] (by decide) (by decide)).2.1⟩

/-- Claim C4 (code bug): `computeFrequencies` has no degenerate-range check
whatsoever — when the reduced maximum equals the reduced minimum the code
proceeds straight into the binning pass (density.cpp lines 147-158) and
produces a histogram instead of aborting.  Evaluating the model on an
all-identical dataset (two samples `5`, two bins): the run returns `.ok`
with all mass in bin 0.  (In IEEE arithmetic the C++ computes `0/0 = NaN`
and the `int` cast is undefined; in this exact model division by zero is
`0`; in neither semantics is any error raised.) -/
theorem claim_degenerate_range_not_rejected :
    computeFrequencies 2 [[5, 5]] =
      Except.ok { total_min := 5, total_max := 5, histo := [2, 0] } := by
  norm_num [computeFrequencies, totalCountReduction, totalMin, totalMax, listMin, listMax,
    reduceSum, localHisto, binIndex, rawIndex, cppTrunc, incAt]
  decide

/-- Claim C5 (code bug): `Density::run` (density.cpp lines 198-205) discards
the Boolean result of `loadFiles()` and calls `computeFrequencies()`
unconditionally.  On a run whose only input file cannot be opened,
`loadFiles` returns failure, yet the frequency computation still runs on the
zero-initialized buffer and the rank-0 histogram file is still written. -/
theorem claim_run_ignores_load_failure :
    runSingleRank (fun _ => { good := false, data := [] })
        { inputs := [⟨"x.bin", 2⟩], nb_bins := 2, output_plot := "plot" }
      = Except.ok
          { load_ok := false
            freq := Except.ok { total_min := 0, total_max := 0, histo := [2, 0] }
            output := some (dumpHistogram "plot" 2 0 0 [2, 0]) } := by
  have hfreq : computeFrequencies 2 [[0, 0]]
      = Except.ok { total_min := 0, total_max := 0, histo := [2, 0] } := by
    norm_num [computeFrequencies, totalCountReduction, totalMin, totalMax, listMin, listMax,
      reduceSum, localHisto, binIndex, rawIndex, cppTrunc, incAt]
    decide
  show (Except.ok
      { load_ok := false
        freq := computeFrequencies 2 [[0, 0]]
        output :=
          match computeFrequencies 2 [[0, 0]] with
          | Except.ok res => histogramOutput 0 "plot" 2 res.total_min res.total_max res.histo
          | Except.error _ => none } : Except InitError RunResult)
    = _
  rw [hfreq]
  rfl

/-- Claim C6 (code bug): `loadFiles` never inspects the stream state after
`file.read` (density.cpp line 110), so a read that does not satisfy the
expected byte count is NOT detected.  On a file declared to hold 2 samples
but containing only 1, the loader returns success with the unfilled region
left at the zero the `resize` put there — the claim's "returns failure on a
short read" is false on the code (the open-failure and empty-buffer cases it
does check behave as claimed). -/
theorem claim_load_short_read_not_detected :
    densityInit { inputs := [⟨"x.bin", 2⟩], nb_bins := 2, output_plot := "plot" } 1 0
        = Except.ok
            { inputs := [⟨"x.bin", 2⟩], local_count := 2, nb_bins := 2, output_plot := "plot" } ∧
      loadFiles (fun _ => { good := true, data := [7] })
          { inputs := [⟨"x.bin", 2⟩], local_count := 2, nb_bins := 2, output_plot := "plot" }
        = (true, [7, 0]) :=
  ⟨rfl, rfl⟩

/-- Counterexample for C7: the claim asserts that with `W = 1` construction
succeeds regardless of the input list; but on an empty input list
`offset = 0` and `assert(offset)` (density.cpp line 64) aborts the
constructor, so construction does not succeed. -/
theorem claim_partition_w1_empty_cex :
    ¬ ∃ st, densityInit { inputs := [], nb_bins := 4, output_plot := "plot" } 1 0
        = Except.ok st :=
  fun ⟨_, h⟩ => Except.noConfusion h

/-- Claim C7 (amended): for `W > 1` and `T < W` or `T % W ≠ 0`, construction
fails with the rank-mismatch configuration error (so no load is attempted —
no constructed state exists to load into); for `W = 1` with a nonempty input
list and positive bin count, construction succeeds and the single worker
takes the entire input list. -/
theorem claim_partition_rejection_amended (cfg : DensityCfg) (W r : ℕ)
    (hW : 1 < W)
    (hmis : cfg.inputs.length < W ∨ cfg.inputs.length % W ≠ 0) :
    densityInit cfg W r = Except.error InitError.rankMismatch ∧
      (cfg.inputs ≠ [] → cfg.nb_bins ≠ 0 →
        densityInit cfg 1 0 = Except.ok
          { inputs := cfg.inputs
            local_count := (cfg.inputs.map FileDesc.count).sum
            nb_bins := cfg.nb_bins
            output_plot := cfg.output_plot }) := by
  constructor
  · have hz : ¬ W = 0 := by omega
    have hcond : ¬ (W = 1 ∨ ¬(cfg.inputs.length < W ∨ cfg.inputs.length % W ≠ 0)) := by
      push_neg
      exact ⟨by omega, hmis⟩
    rw [densityInit, if_neg hz, if_neg hcond]
  · intro hne hbins
    have hT : ¬ cfg.inputs.length / 1 = 0 := by
      rw [Nat.div_one]
      simpa [List.length_eq_zero] using hne
    rw [densityInit, if_neg (by omega : ¬ (1 : ℕ) = 0), if_pos (Or.inl rfl),
      if_neg hT, if_neg hbins, shardOf_one]

/-- Witness for C7 (amended): three files on two ranks is rejected
(`3 % 2 ≠ 0`); the same three files on one rank are all taken by rank 0. -/
theorem claim_partition_rejection_amended_witness :
    densityInit { inputs := [⟨"a", 1⟩, ⟨"b", 2⟩, ⟨"c", 3⟩], nb_bins := 4, output_plot := "plot" } 2 1
        = Except.error InitError.rankMismatch ∧
      densityInit { inputs := [⟨"a", 1⟩, ⟨"b", 2⟩, ⟨"c", 3⟩], nb_bins := 4, output_plot := "plot" } 1 0
        = Except.ok
            { inputs := [⟨"a", 1⟩, ⟨"b", 2⟩, ⟨"c", 3⟩]
              local_count := 6
              nb_bins := 4
              output_plot := "plot" } := by
  have h := claim_partition_rejection_amended
    { inputs := [⟨"a", 1⟩, ⟨"b", 2⟩, ⟨"c", 3⟩], nb_bins := 4, output_plot := "plot" } 2 1
    (by decide) (Or.inr (by decide))
  exact ⟨h.1, h.2 (by decide) (by decide)⟩

/-- Claim C8: for `T % W = 0` and `T ≥ W`, rank `r` receives exactly the
contiguous sub-list `[r * (T / W), (r + 1) * (T / W))` of the input
descriptors, and concatenating all shards in rank order reconstructs the
original ordered list (hence every file lands in exactly one shard). -/
theorem claim_partition_complete (l : List FileDesc) (W : ℕ)
    (hW : 0 < W) (hle : W ≤ l.length) (hmod : l.length % W = 0) :
    (∀ r, r < W → shardOf l W r = (l.drop (r * (l.length / W))).take (l.length / W)) ∧
      ((List.range W).map (fun r => shardOf l W r)).flatten = l := by
  have hdvd : W ∣ l.length := Nat.dvd_of_mod_eq_zero hmod
  have hWo : W * (l.length / W) = l.length := Nat.mul_div_cancel' hdvd
  have hshard : ∀ r, r < W →
      shardOf l W r = (l.drop (r * (l.length / W))).take (l.length / W) := by
    intro r hr
    apply shardOf_eq_drop_take
    calc (r + 1) * (l.length / W) ≤ W * (l.length / W) :=
        Nat.mul_le_mul_right _ hr
      _ = l.length := hWo
  refine ⟨hshard, ?_⟩
  have hmapeq : (List.range W).map (fun r => shardOf l W r)
      = (List.range W).map (fun r => (l.drop (r * (l.length / W))).take (l.length / W)) := by
    apply List.map_congr_left
    intro r hr
    exact hshard r (List.mem_range.mp hr)
  rw [hmapeq]
  exact join_chunks (l.length / W) W l hWo.symm

/-- Witness for C8: four files over two ranks concatenate back to the
original list. -/
theorem claim_partition_complete_witness :
    ((List.range 2).map
        (fun r => shardOf [⟨"a", 1⟩, ⟨"b", 2⟩, ⟨"c", 3⟩, ⟨"d", 4⟩] 2 r)).flatten
      = [⟨"a", 1⟩, ⟨"b", 2⟩, ⟨"c", 3⟩, ⟨"d", 4⟩] :=
  (claim_partition_complete [⟨"a", 1⟩, ⟨"b", 2⟩, ⟨"c", 3⟩, ⟨"d", 4⟩] 2
    (by decide) (by decide) (by decide)).2

/-- Counterexample for C9: the claim says the boundary is written with fixed
4-decimal precision; but `dumpHistogram` applies `std::setprecision(4)`
without ever setting `std::fixed`, so the stream stays in the default
general format (`4.0` prints as `4`, not `4.0000`).  The code's output
differs from the claim's fixed-format file on a concrete histogram. -/
theorem claim_writer_fixed_format_cex :
    dumpHistogram "plot" 1 0 4 [1] ≠ specWriterFixed "plot" 1 0 4 [1] := by
  intro h
  have hf := congrArg
    (fun f => (f.lines.headD { fmt := ⟨0, 0, false⟩, value := 0, count := 0 }).fmt.fixed) h
  simp [dumpHistogram, specWriterFixed, List.range_succ] at hf

/-- Claim C9 (amended): the writer runs only on rank 0; it truncates
`<base>.dat`, writes the three `#` comment lines and then `N` data lines in
increasing bin order, the `k`-th (k = 1..N) holding the boundary
`min + k * width` under `setw(10) << setprecision(4)` in the default general
floating format (not fixed), a tab, and the count of bin `k - 1`. -/
theorem claim_writer_format_amended (p : String) (nb : ℕ) (tmin tmax : ℚ) (histo : List ℤ)
    (hlen : histo.length = nb) :
    dumpHistogram p nb tmin tmax histo = specWriterGeneral p nb tmin tmax histo ∧
      histogramOutput 0 p nb tmin tmax histo = some (dumpHistogram p nb tmin tmax histo) ∧
      ∀ r, r ≠ 0 → histogramOutput r p nb tmin tmax histo = none := by
  refine ⟨?_, rfl, fun r hr => by simp [histogramOutput, hr]⟩
  subst hlen
  rfl

/-- Witness for C9 (amended): a concrete two-bin histogram matches the
spec-shaped general-format file. -/
theorem claim_writer_format_amended_witness :
    dumpHistogram "plot" 2 0 2 [1, 1] = specWriterGeneral "plot" 2 0 2 [1, 1] :=
  (claim_writer_format_amended "plot" 2 0 2 [1, 1] rfl).1

/-- Claim C10: under the preconditions that the reduced range is
non-degenerate and the sample lies between the reduced extrema, the bin
index that `local_histo[index]++` uses is in `[0, nb_bins)` after the single
decrement clamp (every increment is in bounds), and the clamp branch
`index >= nb_bins` is taken exactly when the unclamped index equals
`nb_bins`. -/
theorem claim_bin_index_in_bounds (nb : ℕ) (tmin tmax v : ℚ)
    (hr : tmin < tmax) (hnb : 0 < nb) (h1 : tmin ≤ v) (h2 : v ≤ tmax) :
    (0 ≤ binIndex nb tmin tmax v ∧ binIndex nb tmin tmax v < (nb : ℤ)) ∧
      ((nb : ℤ) ≤ rawIndex nb tmin tmax v ↔ rawIndex nb tmin tmax v = (nb : ℤ)) := by
  obtain ⟨h0, hle, hiff⟩ := rawIndex_bounds nb tmin tmax v hr hnb h1 h2
  exact ⟨binIndex_bounds nb tmin tmax v hr hnb h1 h2,
    ⟨fun hge => le_antisymm hle hge, fun he => le_of_eq he.symm⟩⟩

/-- Witness for C10: the maximum sample of range `[0, 2]` with two bins gets
an in-bounds index. -/
theorem claim_bin_index_in_bounds_witness :
    0 ≤ binIndex 2 0 2 2 ∧ binIndex 2 0 2 2 < (2 : ℤ) :=
  (claim_bin_index_in_bounds 2 0 2 2 (by norm_num) (by norm_num) (by norm_num)
    (by norm_num)).1

end Density
